import Mathlib

set_option maxRecDepth 8000

namespace LfcIcs

/-! Shallow embedding of scripts/fetch-lfc-ics.mjs.  JavaScript strings are
modelled as Lean strings (sequences of Unicode scalars); the regex-based text
operations of the script are modelled by executable functions on character
lists that mirror the backtracking behaviour of the concrete patterns used. -/

/-- Characters of the JavaScript regex whitespace class. -/
def isJsWs (c : Char) : Bool :=
  c = ' ' || c = '\t' || c = '\n' || c = '\x0b' || c = '\x0c' || c = '\r' ||
    c = '\u00A0' || c = '\u1680' || ('\u2000' ≤ c && c ≤ '\u200A') ||
    c = '\u2028' || c = '\u2029' || c = '\u202F' || c = '\u205F' || c = '\u3000' || c = '\uFEFF'

/-- JavaScript line terminators (relevant to the multiline anchors and to the
dot class, which excludes them). -/
def isLineTerm (c : Char) : Bool :=
  c = '\n' || c = '\r' || c = '\u2028' || c = '\u2029'

def isDigitChar (c : Char) : Bool := '0' ≤ c && c ≤ '9'

/-- JavaScript String.prototype.trim on a character list. -/
def jsTrimL (l : List Char) : List Char :=
  ((l.dropWhile isJsWs).reverse.dropWhile isJsWs).reverse

def lowerL (l : List Char) : List Char := l.map Char.toLower

def lowerStr (s : String) : String := ⟨lowerL s.data⟩

/-- JavaScript String.prototype.includes (substring search). -/
def containsSubL (hay pat : List Char) : Bool :=
  hay.tails.any (fun t => pat.isPrefixOf t)

/-- unwrapIcsText: the global replace of the RFC5545 fold pattern - an optional
CR, an LF and one blank or tab - by the empty string, modelled as the
left-to-right scan a global regex replace performs. -/
def unwrapL : List Char → List Char
  | [] => []
  | '\r' :: '\n' :: c :: rest =>
      if c = ' ' || c = '\t' then unwrapL rest
      else '\r' :: unwrapL ('\n' :: c :: rest)
  | '\n' :: c :: rest =>
      if c = ' ' || c = '\t' then unwrapL rest
      else '\n' :: unwrapL (c :: rest)
  | c :: rest => c :: unwrapL rest

def unwrapIcsText (s : String) : String := ⟨unwrapL s.data⟩

/-- True when the text contains a line break immediately followed by a blank
or a tab, i.e. a folded continuation. -/
def hasFoldL : List Char → Bool
  | c1 :: c2 :: r => (c1 = '\n' && (c2 = ' ' || c2 = '\t')) || hasFoldL (c2 :: r)
  | _ => false

def isLowerAlnum (c : Char) : Bool := ('a' ≤ c && c ≤ 'z') || ('0' ≤ c && c ≤ '9')

/-- The replace of every ampersand by the three letters of the word and. -/
def expandAmp : List Char → List Char
  | [] => []
  | c :: r => if c = '&' then 'a' :: 'n' :: 'd' :: expandAmp r else c :: expandAmp r

/-- slug: lower-case, ampersand to and, runs of characters outside a-z0-9
removed, then trimmed. -/
def slug (s : String) : String :=
  ⟨jsTrimL ((expandAmp (lowerL s.data)).filter isLowerAlnum)⟩

/-- The decorative symbols removed by cleanSummary, as Unicode scalars.  The
source character class ranges over UTF-16 units; on well-formed text removing
these scalars performs the same operation. -/
def isEmojiChar (c : Char) : Bool :=
  c = '⚽' || c = '\uFE0F' || c = '🔴' || c = '🟥' || c = '🟢' ||
    c = '✅' || c = '❌' || c = '⭐'

/-- The global replace of every whitespace run by a single blank. -/
def collapseWsAux : Bool → List Char → List Char
  | _, [] => []
  | prevWs, c :: r =>
      if isJsWs c then
        if prevWs then collapseWsAux true r else ' ' :: collapseWsAux true r
      else c :: collapseWsAux false r

/-- cleanSummary: remove the emoji symbols, replace no-break blanks, collapse
whitespace runs, trim. -/
def cleanSummaryL (l : List Char) : List Char :=
  jsTrimL (collapseWsAux false
    ((l.filter (fun c => !isEmojiChar c)).map (fun c => if c = '\u00A0' then ' ' else c)))

def cleanSummary (s : String) : String := ⟨cleanSummaryL s.data⟩

/-- Result of parseDTSTART: normalized date, normalized time and its two
components. -/
structure DT where
  date : String
  time : String
  hh : String
  mm : String
deriving DecidableEq

/-- parseDTSTART: the anchored match of four-two-two date digits and an
optional group of a T and six time digits; the match is not anchored at the
end, so any suffix after the matched digits is ignored.  The optional group
is greedy and participates only when the T and all six digits are present. -/
def parseDTSTART (v : String) : Option DT :=
  let l := v.data
  let d := l.take 8
  if d.length = 8 && d.all isDigitChar then
    let date := String.mk (l.take 4) ++ "-" ++ String.mk ((l.drop 4).take 2) ++ "-" ++
      String.mk ((l.drop 6).take 2)
    let tpart : Option (String × String) :=
      match l.drop 8 with
      | [] => none
      | c :: r =>
        if c = 'T' then
          if (r.take 6).length = 6 && (r.take 6).all isDigitChar then
            some (String.mk (r.take 2), String.mk ((r.drop 2).take 2))
          else none
        else none
    match tpart with
    | some (hh, mm) => some { date := date, time := hh ++ ":" ++ mm, hh := hh, mm := mm }
    | none => some { date := date, time := "00:00", hh := "00", mm := "00" }
  else none

/-- The value starts with an eight-digit run (what the anchored date part of
the parseDTSTART pattern requires). -/
def startsWithDate8 (v : String) : Bool :=
  (v.data.take 8).length = 8 && (v.data.take 8).all isDigitChar

/-- The value carries a T and six digits right after the date digits. -/
def hasTimePart6 (v : String) : Bool :=
  match v.data.drop 8 with
  | [] => false
  | c :: r => c = 'T' && ((r.take 6).length = 6 && (r.take 6).all isDigitChar)

/-- The value contains an eight-digit run somewhere (the claimed, weaker
precondition). -/
def containsDigitRun8 (v : String) : Bool :=
  v.data.tails.any (fun t => (t.take 8).length = 8 && (t.take 8).all isDigitChar)

/-- One attempt of the getLine pattern at a fixed position: the key, an
optional parameter suffix (a semicolon and a run of non-colon characters,
which the negated class lets cross line breaks), a colon, then the captured
run of non-terminator characters.  The backtracking of the source pattern is
deterministic here: the optional group can participate only when a semicolon
follows the key, and the greedy runs allow no shorter viable choice.
First, the colon after a parameter suffix, then the captured value run. -/
def matchColon : List Char → Option (List Char)
  | [] => none
  | d :: r4 => if d = ':' then some (r4.takeWhile (fun x => !isLineTerm x)) else none

/-- What follows the key: either directly a colon, or a semicolon and a
non-colon run (the parameter suffix) up to a colon; then the captured run of
non-terminator characters. -/
def matchAfterKey : List Char → Option (List Char)
  | [] => none
  | c :: r =>
    if c = ';' then matchColon (r.dropWhile (fun x => x != ':'))
    else if c = ':' then some (r.takeWhile (fun x => !isLineTerm x))
    else none

def matchKeyHere (key l : List Char) : Option (List Char) :=
  if key.isPrefixOf l then matchAfterKey (l.drop key.length) else none

/-- The leftmost-match scan of the multiline-anchored getLine pattern: the
start anchor matches at position zero and right after every line
terminator. -/
def getLineScan (key : List Char) : Bool → List Char → Option (List Char)
  | true, l =>
    (match matchKeyHere key l with
     | some v => some v
     | none =>
       match l with
       | [] => none
       | c :: r => getLineScan key (isLineTerm c) r)
  | false, l =>
    match l with
    | [] => none
    | c :: r => getLineScan key (isLineTerm c) r

/-- getLine: first match of the key pattern, its capture trimmed; the empty
string when there is no match. -/
def getLine (block key : String) : String :=
  match getLineScan key.data true block.data with
  | some v => ⟨jsTrimL v⟩
  | none => ""

/-- The lines of a text, one per segment between line terminators (the view
the multiline anchors induce). -/
def splitLinesL : List Char → List (List Char)
  | [] => [[]]
  | c :: r =>
    if isLineTerm c then [] :: splitLinesL r
    else
      match splitLinesL r with
      | ln :: rest => (c :: ln) :: rest
      | [] => [[c]]

/-- The per-line reading of the extractor: the first line on which the key
pattern matches, its capture trimmed. -/
def getLinePerLine (block key : String) : String :=
  match (splitLinesL block.data).findSome? (fun ln => matchKeyHere key.data ln) with
  | some v => ⟨jsTrimL v⟩
  | none => ""

def goodKeyChar (c : Char) : Bool := !isLineTerm c && c != ';' && c != ':'

/-- A field key made of ordinary characters (no terminators, no semicolon, no
colon), as all keys the script uses are. -/
def goodKey (key : List Char) : Bool := key.all goodKeyChar

/-- A line is acceptable for the per-line reading when a key occurrence at its
start is not followed by a parameter suffix that runs past the line break. -/
def paramSuffixOk (key ln : List Char) : Bool :=
  !(key.isPrefixOf ln) ||
    (match ln.drop key.length with
     | [] => true
     | c :: r2 => if c = ';' then r2.contains ':' else true)

def blockLinesOk (key l : List Char) : Bool := (splitLinesL l).all (paramSuffixOk key)

/-- Character classes occurring in the three splitTeams patterns. -/
inductive RClass where
  | anyDot : RClass
  | wsCls : RClass
  | digitCls : RClass
  | oneOf (cs : List Char) : RClass
  | charCi (c : Char) : RClass
deriving DecidableEq

def classMatch : RClass → Char → Bool
  | .anyDot, c => !isLineTerm c
  | .wsCls, c => isJsWs c
  | .digitCls, c => isDigitChar c
  | .oneOf cs, c => cs.contains c
  | .charCi b, c => c = b || c = b.toUpper

/-- One quantified atom of a pattern: a character class with a minimum
repetition count, an at-most-one flag (single atoms and question-mark
quantifiers) and the preference direction (lazy tries short first, greedy
tries long first). -/
structure Tok where
  cls : RClass
  low : Nat
  atMostOne : Bool
  lazyRep : Bool
deriving DecidableEq

/-- Length of the longest prefix all of whose characters match the class. -/
def runLen (cls : RClass) : List Char → Nat
  | [] => 0
  | c :: r => if classMatch cls c then runLen cls r + 1 else 0

/-- The repetition counts a backtracking engine tries for one atom, in
preference order. -/
def countChoices (t : Tok) (l : List Char) : List Nat :=
  let hi := if t.atMostOne then min (runLen t.cls l) 1 else runLen t.cls l
  if t.low > hi then []
  else if t.lazyRep then List.range' t.low (hi - t.low + 1)
  else (List.range' t.low (hi - t.low + 1)).reverse

/-- Anchored backtracking match of a token sequence against the whole input
(the patterns all carry both anchors); returns the consumed span of every
token, in order, for the first solution in backtracking order. -/
def matchToks : List Tok → List Char → Option (List (List Char))
  | [], l => if l = [] then some [] else none
  | t :: ts, l =>
    (countChoices t l).findSome?
      (fun k => (matchToks ts (l.drop k)).map (fun caps => l.take k :: caps))

def plusLazyDot : Tok := ⟨.anyDot, 1, false, true⟩
def plusWs : Tok := ⟨.wsCls, 1, false, false⟩
def starWs : Tok := ⟨.wsCls, 0, false, false⟩
def plusDigit : Tok := ⟨.digitCls, 1, false, false⟩

/-- The score shape: lazy team, blanks, digits, optional blanks, a hyphen or
en dash, optional blanks, digits, blanks, lazy team. -/
def scoreToks : List Tok :=
  [plusLazyDot, plusWs, plusDigit, starWs, ⟨.oneOf ['-', '–'], 1, true, false⟩,
    starWs, plusDigit, plusWs, plusLazyDot]

/-- The versus shape, case-insensitive: lazy team, blanks, the letter v, an
optional letter s, an optional period, blanks, lazy team. -/
def vsToks : List Tok :=
  [plusLazyDot, plusWs, ⟨.charCi 'v', 1, true, false⟩, ⟨.charCi 's', 0, true, false⟩,
    ⟨.oneOf ['.'], 0, true, false⟩, plusWs, plusLazyDot]

/-- The dash shape: lazy team, optional blanks, an en dash, em dash or
hyphen, optional blanks, lazy team. -/
def dashToks : List Tok :=
  [plusLazyDot, starWs, ⟨.oneOf ['–', '—', '-'], 1, true, false⟩, starWs, plusLazyDot]

structure TeamSplit where
  a : String
  b : String
  homeGoals : Option Nat
  awayGoals : Option Nat
deriving DecidableEq

/-- Number applied to a run of decimal digits. -/
def digitsToNat (l : List Char) : Nat :=
  l.foldl (fun n c => n * 10 + (c.toNat - '0'.toNat)) 0

def scoreMatch (l : List Char) : Option (List (List Char)) := matchToks scoreToks l
def vsMatch (l : List Char) : Option (List (List Char)) := matchToks vsToks l
def dashMatch (l : List Char) : Option (List (List Char)) := matchToks dashToks l

/-- splitTeams: clean the summary, then try the score, versus and dash shapes
in that order; trimmed team names, goal counts only from the score shape,
and two empty names when no shape matches. -/
def splitTeams (summaryRaw : String) : TeamSplit :=
  let s := cleanSummaryL summaryRaw.data
  match scoreMatch s with
  | some caps =>
    { a := ⟨jsTrimL (caps.getD 0 [])⟩, b := ⟨jsTrimL (caps.getD 8 [])⟩,
      homeGoals := some (digitsToNat (caps.getD 2 [])),
      awayGoals := some (digitsToNat (caps.getD 6 [])) }
  | none =>
    match vsMatch s with
    | some caps =>
      { a := ⟨jsTrimL (caps.getD 0 [])⟩, b := ⟨jsTrimL (caps.getD 6 [])⟩,
        homeGoals := none, awayGoals := none }
    | none =>
      match dashMatch s with
      | some caps =>
        { a := ⟨jsTrimL (caps.getD 0 [])⟩, b := ⟨jsTrimL (caps.getD 4 [])⟩,
          homeGoals := none, awayGoals := none }
      | none => { a := "", b := "", homeGoals := none, awayGoals := none }

def includesS (hay pat : String) : Bool := containsSubL hay.data pat.data

/-- The lower-cased haystack joining summary, description and location. -/
def hayOf (summary description location : String) : String :=
  lowerStr (summary ++ " " ++ description ++ " " ++ location)

/-- detectCompetition: case-insensitive keyword search over the joined
summary, description and location, first hit wins; the fallback when nothing
matches is the league code. -/
def detectCompetition (summary description location : String) : String :=
  let hay := hayOf summary description location
  if includesS hay "champions league" || includesS hay "uefa champions league" ||
      includesS hay "ucl" then "UCL"
  else if includesS hay "fa cup" || includesS hay "emirates fa cup" then "FAC"
  else if includesS hay "carabao" || includesS hay "efl cup" ||
      includesS hay "league cup" then "LC"
  else if includesS hay "friendly" || includesS hay "pre-season" ||
      includesS hay "club friendly" then "OTHER"
  else if includesS hay "community shield" || includesS hay "super cup" then "OTHER"
  else "PL"

/-- The keyword set the code maps to the Champions League code. -/
def uclHit (hay : String) : Bool :=
  includesS hay "champions league" || includesS hay "uefa champions league" ||
    includesS hay "ucl"

/-- The keyword set the code maps to the FA Cup code. -/
def facHit (hay : String) : Bool :=
  includesS hay "fa cup" || includesS hay "emirates fa cup"

/-- The keyword set the code maps to the League Cup code. -/
def lcHit (hay : String) : Bool :=
  includesS hay "carabao" || includesS hay "efl cup" || includesS hay "league cup"

/-- The keywords the code maps to OTHER (friendlies and one-off trophies). -/
def otherHit (hay : String) : Bool :=
  includesS hay "friendly" || includesS hay "pre-season" || includesS hay "club friendly" ||
    includesS hay "community shield" || includesS hay "super cup"

/-- isNonMatchEvent: empty summaries and administrative entries. -/
def isNonMatchEvent (summaryRaw : String) : Bool :=
  let s := lowerStr ⟨cleanSummaryL summaryRaw.data⟩
  s == "" || includesS s "draw" || includesS s "fixture release" ||
    includesS s "kick-off times"

/-- Season window bounds. -/
def FROM : String := "2025-08-01"

def TO : String := "2026-07-31"

/-- Lexicographic strict comparison of character lists, as the JavaScript
relational operators compare strings (code-unit order; the date strings
compared are ASCII, where code units and scalars agree). -/
def ltCharsB : List Char → List Char → Bool
  | [], [] => false
  | [], _ :: _ => true
  | _ :: _, [] => false
  | a :: as, b :: bs => if a < b then true else if b < a then false else ltCharsB as bs

/-- The JavaScript string comparison of the season filter. -/
def jsLtS (a b : String) : Bool := ltCharsB a.data b.data

structure Fixture where
  source : String
  id : String
  date : String
  time : String
  datetime_utc : String
  competition : String
  opponent : String
  venue : String
  location : String
  homeGoals : Option Nat
  awayGoals : Option Nat
deriving DecidableEq

def lfcToken : String := "liverpool"

/-- JavaScript String.prototype.replace with a plain string pattern: first
occurrence only (used on the time to drop its colon). -/
def removeFirst (x : Char) : List Char → List Char
  | [] => []
  | c :: r => if c = x then r else c :: removeFirst x r

/-- The per-event-block part of parseICS: every continue of the source loop
is a none here. -/
def processBlock (block : String) : Option Fixture :=
  let dtstart := getLine block "DTSTART"
  if dtstart = "" then none
  else
    match parseDTSTART dtstart with
    | none => none
    | some dt =>
      if jsLtS dt.date FROM || jsLtS TO dt.date then none
      else
        let summaryRaw := getLine block "SUMMARY"
        let summary : String := ⟨cleanSummaryL summaryRaw.data⟩
        let description := getLine block "DESCRIPTION"
        let location := getLine block "LOCATION"
        if isNonMatchEvent summary then none
        else
          let ts := splitTeams summary
          if ts.a = "" ∨ ts.b = "" then none
          else
            let aIsLfc := containsSubL (lowerL ts.a.data) lfcToken.data
            let bIsLfc := containsSubL (lowerL ts.b.data) lfcToken.data
            if !aIsLfc && !bIsLfc then none
            else
              let venue : String := if aIsLfc then "H" else "A"
              let opponent := if aIsLfc then ts.b else ts.a
              let competition := detectCompetition summary description location
              let idStr := dt.date ++ "-" ++ slug competition ++ "-" ++ slug opponent ++
                "-" ++ lowerStr venue ++ "-" ++ String.mk (removeFirst ':' dt.time.data)
              some { source := "ics", id := idStr, date := dt.date, time := dt.time,
                     datetime_utc := dt.date ++ "T" ++ dt.hh ++ ":" ++ dt.mm ++ ":00Z",
                     competition := competition, opponent := opponent, venue := venue,
                     location := location,
                     homeGoals := ts.homeGoals, awayGoals := ts.awayGoals }

/-- JavaScript String.prototype.split with a non-empty plain separator,
via a fuel argument that bounds the scan by the input length. -/
def splitOnAuxL (sep : List Char) : Nat → List Char → List (List Char)
  | _, [] => [[]]
  | 0, l => [l]
  | fuel + 1, c :: r =>
    if sep.isPrefixOf (c :: r) then
      [] :: splitOnAuxL sep fuel ((c :: r).drop sep.length)
    else
      match splitOnAuxL sep fuel r with
      | seg :: rest => (c :: seg) :: rest
      | [] => [[c]]

def splitOnS (s sep : String) : List String :=
  (splitOnAuxL sep.data s.data.length s.data).map (fun l => ⟨l⟩)

/-- The id-deduplication filter with its seen set. -/
def dedupeAux (seen : List String) : List Fixture → List Fixture
  | [] => []
  | x :: r => if seen.contains x.id then dedupeAux seen r else x :: dedupeAux (x.id :: seen) r

def dedupeById (l : List Fixture) : List Fixture := dedupeAux [] l

/-- parseICS: unfold, split into event blocks, normalize each block, drop the
failures, de-duplicate by id keeping first occurrences. -/
def parseICS (icsRaw : String) : List Fixture :=
  let ics := unwrapIcsText icsRaw
  let blocks := ((splitOnS ics "BEGIN:VEVENT").drop 1).map (fun b => "BEGIN:VEVENT" ++ b)
  dedupeById (blocks.filterMap processBlock)

/-- The comparator key of the final sort in main. -/
def sortKey (f : Fixture) : String := f.date ++ f.time

def fixtureLe (a b : Fixture) : Prop := sortKey a ≤ sortKey b

instance : DecidableRel fixtureLe :=
  fun a b => inferInstanceAs (Decidable (sortKey a ≤ sortKey b))

instance : IsTotal Fixture fixtureLe := ⟨fun a b => le_total (sortKey a) (sortKey b)⟩

instance : IsTrans Fixture fixtureLe := ⟨fun _ _ _ h1 h2 => le_trans h1 h2⟩

/-- The stable ascending sort of main applied to the parsed batch; on the
fixed-width date and time strings the locale comparison of the source agrees
with lexicographic order. -/
def sortFixtures (l : List Fixture) : List Fixture := List.insertionSort fixtureLe l

/-- Concrete calendar with one event whose summary names two visiting clubs. -/
def c1Block : String :=
  "BEGIN:VEVENT\nDTSTART:20250901T200000Z\nSUMMARY:Everton v Arsenal\nEND:VEVENT"

/-- Concrete calendar with one event before the window and one on its upper
bound. -/
def c4Ics : String :=
  "BEGIN:VEVENT\nDTSTART:20250730T150000Z\nSUMMARY:Liverpool v Chelsea\nEND:VEVENT\nBEGIN:VEVENT\nDTSTART:20260731T150000Z\nSUMMARY:Liverpool v Chelsea\nEND:VEVENT"

/-- Concrete out-of-window event block. -/
def c4OutBlock : String :=
  "BEGIN:VEVENT\nDTSTART:20300101T120000Z\nSUMMARY:Liverpool v Chelsea\nEND:VEVENT"

/-- Concrete calendar with a scored home summary. -/
def c6Ics : String :=
  "BEGIN:VCALENDAR\nBEGIN:VEVENT\nDTSTART:20250920T150000Z\nSUMMARY:Liverpool 2-0 Chelsea\nLOCATION:Anfield\nEND:VEVENT\nEND:VCALENDAR"

/-- Concrete calendar whose start time carries no UTC marker. -/
def c10Ics : String :=
  "BEGIN:VEVENT\nDTSTART:20250901T200000\nSUMMARY:Liverpool v Chelsea\nEND:VEVENT"

/-- The record the calendar above normalizes to. -/
def c10Fix : Fixture :=
  { source := "ics", id := "2025-09-01-pl-chelsea-h-2000", date := "2025-09-01",
    time := "20:00", datetime_utc := "2025-09-01T20:00:00Z", competition := "PL",
    opponent := "Chelsea", venue := "H", location := "",
    homeGoals := none, awayGoals := none }

theorem unwrapL_of_not_hasFold : ∀ l : List Char, hasFoldL l = false → unwrapL l = l := by
  intro l h
  induction l using unwrapL.induct with
  | case1 => rfl
  | case2 c rest hws ih =>
      exfalso
      simp only [hasFoldL, Bool.or_eq_false_iff, Bool.and_eq_false_iff] at h
      rcases h with ⟨h1, h2⟩
      simp_all [hasFoldL]
  | case3 c rest hws ih =>
      simp only [hasFoldL, Bool.or_eq_false_iff, Bool.and_eq_false_iff] at h
      have h1 : hasFoldL ('\n' :: c :: rest) = false := by
        simp only [hasFoldL, Bool.or_eq_false_iff, Bool.and_eq_false_iff]
        exact ⟨h.2.1, h.2.2⟩
      have h2 := ih h1
      simp only [unwrapL, if_neg hws] at h2 ⊢
      injection h2 with h3 h4
      rw [h4]
  | case4 c rest hws ih =>
      exfalso
      simp_all [hasFoldL]
  | case5 c rest hws ih =>
      simp only [hasFoldL, Bool.or_eq_false_iff, Bool.and_eq_false_iff] at h
      have h2 := ih h.2
      simp only [unwrapL, if_neg hws]
      rw [h2]
  | case6 c rest h1 h2 ih =>
      simp only [unwrapL]
      rw [ih]
      cases rest with
      | nil => simp [hasFoldL]
      | cons d r => simp_all [hasFoldL]

/-- Claim C9: on every text with no folded continuation (no line break
immediately followed by a blank or tab) the unfolder returns the text
unchanged, hence unfolding is idempotent on such text; it removes both LF and
CRLF folds. -/
theorem c9_unfold_identity :
    (∀ s : String, hasFoldL s.data = false →
      unwrapIcsText s = s ∧ unwrapIcsText (unwrapIcsText s) = unwrapIcsText s) ∧
    unwrapIcsText "A\r\n B" = "AB" ∧ unwrapIcsText "A\n B" = "AB" := by
  refine ⟨fun s h => ?_, by decide, by decide⟩
  have h2 : unwrapIcsText s = s := by
    show String.mk (unwrapL s.data) = s
    rw [unwrapL_of_not_hasFold s.data h]
  exact ⟨h2, by rw [h2]; exact h2⟩

/-- Witness for C9 at a concrete unfolded text. -/
theorem c9_witness :
    hasFoldL ("SUMMARY:Liverpool v Chelsea".data) = false ∧
      unwrapIcsText "SUMMARY:Liverpool v Chelsea" = "SUMMARY:Liverpool v Chelsea" :=
  ⟨by decide, (c9_unfold_identity.1 "SUMMARY:Liverpool v Chelsea" (by decide)).1⟩

theorem mem_of_mem_jsTrimL {c : Char} {l : List Char} (h : c ∈ jsTrimL l) : c ∈ l := by
  unfold jsTrimL at h
  rw [List.mem_reverse] at h
  have h2 : c ∈ (l.dropWhile isJsWs).reverse := (List.dropWhile_sublist isJsWs).subset h
  rw [List.mem_reverse] at h2
  exact (List.dropWhile_sublist isJsWs).subset h2

theorem slug_chars : ∀ s : String, ∀ c ∈ (slug s).data, isLowerAlnum c = true := by
  intro s c hc
  have h1 : c ∈ (expandAmp (lowerL s.data)).filter isLowerAlnum := mem_of_mem_jsTrimL hc
  exact List.of_mem_filter h1

/-- Claim C8: the slug lower-cases, expands the ampersand to the word and,
removes runs of non-alphanumeric characters, as the two reference examples
show; every character of a slug is a lower-case letter or digit. -/
theorem c8_slug :
    slug "Newcastle United" = "newcastleunited" ∧ slug "Leeds & Co" = "leedsandco" ∧
    ∀ s : String, ∀ c ∈ (slug s).data, isLowerAlnum c = true :=
  ⟨by decide, by decide, slug_chars⟩

/-- Witness for C8 at a concrete character of a concrete slug. -/
theorem c8_witness : 'n' ∈ (slug "Newcastle United").data ∧ isLowerAlnum 'n' = true :=
  ⟨by decide, c8_slug.2.2 "Newcastle United" 'n' (by decide)⟩

theorem ltCharsB_iff_lex :
    ∀ as bs : List Char, ltCharsB as bs = true ↔ List.Lex (· < ·) as bs := by
  intro as
  induction as with
  | nil =>
    intro bs
    cases bs with
    | nil =>
      constructor
      · intro h; exact absurd h (by decide)
      · intro hlex; exact absurd hlex (List.Lex.not_nil_right _ _)
    | cons b bs => exact iff_of_true rfl List.Lex.nil
  | cons a as ih =>
    intro bs
    cases bs with
    | nil =>
      constructor
      · intro h; simp only [ltCharsB] at h; exact absurd h (by decide)
      · intro hlex; exact absurd hlex (List.Lex.not_nil_right _ _)
    | cons b bs =>
      simp only [ltCharsB]
      by_cases h1 : a < b
      · rw [if_pos h1]
        exact iff_of_true rfl (List.Lex.rel h1)
      · rw [if_neg h1]
        by_cases h2 : b < a
        · rw [if_pos h2]
          constructor
          · intro h; exact absurd h (by decide)
          · intro hlex
            cases hlex with
            | cons h' => exact absurd h2 (lt_irrefl a)
            | rel h' => exact absurd h' h1
        · rw [if_neg h2]
          have hab : a = b := le_antisymm (not_lt.mp h2) (not_lt.mp h1)
          subst hab
          rw [ih bs]
          constructor
          · exact fun h => List.Lex.cons h
          · intro hlex
            cases hlex with
            | cons h' => exact h'
            | rel h' => exact absurd h' (lt_irrefl a)

theorem jsLtS_iff : ∀ a b : String, jsLtS a b = true ↔ a < b := by
  intro a b
  show ltCharsB a.data b.data = true ↔ a < b
  rw [ltCharsB_iff_lex, String.lt_iff_toList_lt]
  exact Iff.rfl

theorem jsLtS_false_iff : ∀ a b : String, jsLtS a b = false ↔ b ≤ a := by
  intro a b
  constructor
  · intro h
    refine not_lt.mp (fun hlt => ?_)
    rw [(jsLtS_iff a b).mpr hlt] at h
    exact absurd h (by decide)
  · intro h
    cases hb : jsLtS a b with
    | false => rfl
    | true => exact absurd ((jsLtS_iff a b).mp hb) (not_lt.mpr h)

/-- Claim C4: the season filter keeps a date exactly when it lies between the
inclusive bounds under lexicographic string comparison; an out-of-window start
time makes the normalizer drop the block; the boundary examples behave as
claimed. -/
theorem c4_window :
    (∀ d : String, (jsLtS d FROM || jsLtS TO d) = false ↔ FROM ≤ d ∧ d ≤ TO) ∧
    (∀ (block : String) (dt : DT), parseDTSTART (getLine block "DTSTART") = some dt →
      (jsLtS dt.date FROM || jsLtS TO dt.date) = true → processBlock block = none) ∧
    jsLtS "2025-07-30" FROM = true ∧
    (jsLtS "2026-07-31" FROM || jsLtS TO "2026-07-31") = false ∧
    (parseICS c4Ics).map (fun f => f.date) = ["2026-07-31"] := by
  refine ⟨?_, ?_, by decide, by decide, by decide⟩
  · intro d
    rw [Bool.or_eq_false_iff, jsLtS_false_iff, jsLtS_false_iff]
  · intro block dt h hg
    unfold processBlock
    dsimp only
    split
    · rfl
    next hne =>
      split
      next heq => simp [h] at heq
      next dt' heq =>
        rw [h] at heq
        injection heq with heq'
        subst heq'
        rw [if_pos hg]

/-- Witness for C4 at a concrete out-of-window block. -/
theorem c4_witness :
    parseDTSTART (getLine c4OutBlock "DTSTART") =
        some ⟨"2030-01-01", "12:00", "12", "00"⟩ ∧
      processBlock c4OutBlock = none :=
  ⟨by decide, c4_window.2.1 c4OutBlock ⟨"2030-01-01", "12:00", "12", "00"⟩
    (by decide) (by decide)⟩

/-- Counterexample to claim C2: a haystack matching no keyword set at all is
classified PL, not OTHER. -/
theorem c2_counterexample :
    detectCompetition "zzz" "" "" = "PL" ∧
    uclHit (hayOf "zzz" "" "") = false ∧ facHit (hayOf "zzz" "" "") = false ∧
    lcHit (hayOf "zzz" "" "") = false ∧ otherHit (hayOf "zzz" "" "") = false := by
  exact ⟨by decide, by decide, by decide, by decide, by decide⟩

/-- Claim C2 as amended: classification is a case-insensitive substring search
in priority order Champions-League keywords, FA-Cup keywords, League-Cup
keywords, then friendly and one-off-trophy keywords mapping to OTHER, with PL
as the final default when nothing matches (there is no PL keyword set and
OTHER is not the default). -/
theorem c2_priority :
    ∀ s d l : String,
      (uclHit (hayOf s d l) = true → detectCompetition s d l = "UCL") ∧
      (uclHit (hayOf s d l) = false → facHit (hayOf s d l) = true →
        detectCompetition s d l = "FAC") ∧
      (uclHit (hayOf s d l) = false → facHit (hayOf s d l) = false →
        lcHit (hayOf s d l) = true → detectCompetition s d l = "LC") ∧
      (uclHit (hayOf s d l) = false → facHit (hayOf s d l) = false →
        lcHit (hayOf s d l) = false → otherHit (hayOf s d l) = true →
        detectCompetition s d l = "OTHER") ∧
      (uclHit (hayOf s d l) = false → facHit (hayOf s d l) = false →
        lcHit (hayOf s d l) = false → otherHit (hayOf s d l) = false →
        detectCompetition s d l = "PL") := by
  intro s d l
  unfold detectCompetition uclHit facHit lcHit otherHit
  dsimp only
  refine ⟨?_, ?_, ?_, ?_, ?_⟩
  · intro h1
    simp [h1]
  · intro h1 h2
    simp only [Bool.or_eq_false_iff] at h1
    obtain ⟨⟨hu1, hu2⟩, hu3⟩ := h1
    simp [hu1, hu2, hu3, h2]
  · intro h1 h2 h3
    simp only [Bool.or_eq_false_iff] at h1 h2
    obtain ⟨⟨hu1, hu2⟩, hu3⟩ := h1
    obtain ⟨hf1, hf2⟩ := h2
    simp [hu1, hu2, hu3, hf1, hf2, h3]
  · intro h1 h2 h3 h4
    simp only [Bool.or_eq_false_iff] at h1 h2 h3
    obtain ⟨⟨hu1, hu2⟩, hu3⟩ := h1
    obtain ⟨hf1, hf2⟩ := h2
    obtain ⟨⟨hl1, hl2⟩, hl3⟩ := h3
    by_cases hx : (includesS (hayOf s d l) "friendly" ||
        includesS (hayOf s d l) "pre-season" ||
        includesS (hayOf s d l) "club friendly") = true
    · simp [hu1, hu2, hu3, hf1, hf2, hl1, hl2, hl3, hx]
    · have hx' : (includesS (hayOf s d l) "friendly" ||
          includesS (hayOf s d l) "pre-season" ||
          includesS (hayOf s d l) "club friendly") = false := by
        revert hx
        cases (includesS (hayOf s d l) "friendly" ||
          includesS (hayOf s d l) "pre-season" ||
          includesS (hayOf s d l) "club friendly") <;> simp
      rw [Bool.or_assoc] at h4
      rw [hx'] at h4
      simp only [Bool.false_or] at h4
      simp [hu1, hu2, hu3, hf1, hf2, hl1, hl2, hl3, hx, h4]
  · intro h1 h2 h3 h4
    simp only [Bool.or_eq_false_iff] at h1 h2 h3 h4
    obtain ⟨⟨hu1, hu2⟩, hu3⟩ := h1
    obtain ⟨hf1, hf2⟩ := h2
    obtain ⟨⟨hl1, hl2⟩, hl3⟩ := h3
    obtain ⟨⟨⟨⟨ho1, ho2⟩, ho3⟩, ho4⟩, ho5⟩ := h4
    simp [hu1, hu2, hu3, hf1, hf2, hl1, hl2, hl3, ho1, ho2, ho3, ho4, ho5]

/-- Witness for C2 at a concrete Champions-League haystack. -/
theorem c2_witness :
    uclHit (hayOf "x" "UEFA Champions League" "") = true ∧
      detectCompetition "x" "UEFA Champions League" "" = "UCL" :=
  ⟨by decide, (c2_priority "x" "UEFA Champions League" "").1 (by decide)⟩

/-- Counterexample to claim C3: a value that contains an eight-digit run but
does not begin with one parses to null, so null is not returned exactly when
no eight-digit date is contained. -/
theorem c3_counterexample :
    containsDigitRun8 "X20260131" = true ∧ parseDTSTART "X20260131" = none :=
  ⟨by decide, by decide⟩

/-- Claim C3 as amended: the start-time parser returns null exactly when the
value does not begin with eight digits; the time defaults to 00:00 when no
T-and-six-digits component follows the date; any suffix after the time digits
is ignored; and a block whose start-time field is absent or unparsable is
excluded from the batch. -/
theorem c3_dtstart :
    (∀ v : String, parseDTSTART v = none ↔ startsWithDate8 v = false) ∧
    (∀ (v : String) (dt : DT), parseDTSTART v = some dt → hasTimePart6 v = false →
      dt.time = "00:00" ∧ dt.hh = "00" ∧ dt.mm = "00") ∧
    (∀ d8 t6 suffix : List Char, d8.length = 8 → t6.length = 6 →
      parseDTSTART ⟨d8 ++ ('T' :: (t6 ++ suffix))⟩ = parseDTSTART ⟨d8 ++ ('T' :: t6)⟩) ∧
    (∀ block : String,
      getLine block "DTSTART" = "" ∨ parseDTSTART (getLine block "DTSTART") = none →
      processBlock block = none) := by
  refine ⟨?_, ?_, ?_, ?_⟩
  · intro v
    unfold parseDTSTART startsWithDate8
    dsimp only
    split
    next hg =>
      constructor
      · intro hnone
        exfalso
        revert hnone
        split <;> simp
      · intro hfalse
        rw [hg] at hfalse
        exact absurd hfalse (by decide)
    next hg =>
      simp only [Bool.not_eq_true] at hg
      exact iff_of_true rfl hg
  · intro v dt h ht
    unfold parseDTSTART at h
    dsimp only at h
    split at h
    next hg =>
      cases hd : v.data.drop 8 with
      | nil =>
        rw [hd] at h
        dsimp only at h
        injection h with h'
        rw [← h']
        exact ⟨rfl, rfl, rfl⟩
      | cons c r =>
        rw [hd] at h
        unfold hasTimePart6 at ht
        rw [hd] at ht
        dsimp only at h ht
        by_cases hc : c = 'T'
        · subst hc
          have hguard :
              (decide ((r.take 6).length = 6) && (r.take 6).all isDigitChar) = false := by
            simpa using ht
          rw [hguard] at h
          simp at h
          rw [← h]
          exact ⟨rfl, rfl, rfl⟩
        · simp [hc] at h
          rw [← h]
          exact ⟨rfl, rfl, rfl⟩
    next hg => cases h
  · intro d8 t6 suffix h8 h6
    unfold parseDTSTART
    have e1 : ∀ X : List Char, (d8 ++ X).take 8 = d8 := by
      intro X; rw [← h8, List.take_left]
    have e2 : ∀ X : List Char, (d8 ++ X).drop 8 = X := by
      intro X; rw [← h8, List.drop_left]
    have e3 : ∀ X : List Char, (d8 ++ X).take 4 = d8.take 4 :=
      fun X => List.take_append_of_le_length (by omega)
    have e4 : ∀ X : List Char, (d8 ++ X).drop 4 = d8.drop 4 ++ X :=
      fun X => List.drop_append_of_le_length (by omega)
    have e5 : ∀ X : List Char, (d8 ++ X).drop 6 = d8.drop 6 ++ X :=
      fun X => List.drop_append_of_le_length (by omega)
    have e8 : ∀ X : List Char, (d8.drop 4 ++ X).take 2 = (d8.drop 4).take 2 :=
      fun X => List.take_append_of_le_length (by rw [List.length_drop, h8]; first | done | decide)
    have e9 : ∀ X : List Char, (d8.drop 6 ++ X).take 2 = (d8.drop 6).take 2 :=
      fun X => List.take_append_of_le_length (by rw [List.length_drop, h8])
    have f1 : (t6 ++ suffix).take 6 = t6 := by rw [← h6, List.take_left]
    have f2 : t6.take 6 = t6 := by rw [← h6, List.take_length]
    have f3 : (t6 ++ suffix).take 2 = t6.take 2 :=
      List.take_append_of_le_length (by omega)
    have f4 : (t6 ++ suffix).drop 2 = t6.drop 2 ++ suffix :=
      List.drop_append_of_le_length (by omega)
    have f6 : (t6.drop 2 ++ suffix).take 2 = (t6.drop 2).take 2 :=
      List.take_append_of_le_length (by rw [List.length_drop, h6]; first | done | decide)
    dsimp only
    rw [e1, e1, e2, e2, e3, e3, e4, e4, e5, e5, e8, e8, e9, e9]
    simp only [f1, f2, f3, f4, f6]
  · intro block h
    unfold processBlock
    dsimp only
    split
    · rfl
    next hne =>
      rcases h with h | h
      · exact absurd h hne
      · split
        · rfl
        next dt heq => rw [h] at heq; cases heq

/-- Witness for C3 at a block with no start-time field. -/
theorem c3_witness :
    (getLine "X" "DTSTART" = "" ∨ parseDTSTART (getLine "X" "DTSTART") = none) ∧
      processBlock "X" = none :=
  ⟨Or.inl (by decide), c3_dtstart.2.2.2 "X" (Or.inl (by decide))⟩

/-- Counterexample to claim C1: an event whose two team names carry no
home-club token is dropped from the batch entirely, not emitted with the whole
summary as opponent and venue H. -/
theorem c1_counterexample :
    splitTeams "Everton v Arsenal" = ⟨"Everton", "Arsenal", none, none⟩ ∧
    containsSubL (lowerL ("Everton".data)) lfcToken.data = false ∧
    containsSubL (lowerL ("Arsenal".data)) lfcToken.data = false ∧
    parseICS c1Block = [] :=
  ⟨by decide, by decide, by decide, by decide⟩

/-- Claim C1 as amended: when the home-club token appears in neither extracted
team name, the normalizer excludes the event block from the output batch. -/
theorem c1_no_home_token_excluded :
    ∀ block : String,
      containsSubL
        (lowerL (splitTeams ⟨cleanSummaryL (getLine block "SUMMARY").data⟩).a.data)
        lfcToken.data = false →
      containsSubL
        (lowerL (splitTeams ⟨cleanSummaryL (getLine block "SUMMARY").data⟩).b.data)
        lfcToken.data = false →
      processBlock block = none := by
  intro block h1 h2
  unfold processBlock
  dsimp only
  split
  · rfl
  split
  · rfl
  split
  · rfl
  split
  · rfl
  split
  · rfl
  split
  · rfl
  next hno =>
    exfalso
    exact hno (by rw [h1, h2]; rfl)

/-- Witness for C1 at a concrete block naming two visiting clubs. -/
theorem c1_witness :
    containsSubL
        (lowerL (splitTeams ⟨cleanSummaryL (getLine c1Block "SUMMARY").data⟩).a.data)
        lfcToken.data = false ∧
      containsSubL
        (lowerL (splitTeams ⟨cleanSummaryL (getLine c1Block "SUMMARY").data⟩).b.data)
        lfcToken.data = false ∧
      processBlock c1Block = none :=
  ⟨by decide, by decide, c1_no_home_token_excluded c1Block (by decide) (by decide)⟩

/-- Claim C6: splitTeams tries the score shape, the versus shape and the dash
shape in that order, returns goal counts exactly in the score case, empty
names when nothing matches, and on the reference summary yields Liverpool,
Chelsea, two and zero, with venue H and opponent Chelsea downstream. -/
theorem c6_split_teams :
    splitTeams "Liverpool 2-0 Chelsea" = ⟨"Liverpool", "Chelsea", some 2, some 0⟩ ∧
    (∀ s : String, scoreMatch (cleanSummaryL s.data) = none →
      (splitTeams s).homeGoals = none ∧ (splitTeams s).awayGoals = none) ∧
    (∀ (s : String) (caps : List (List Char)),
      scoreMatch (cleanSummaryL s.data) = some caps →
      (splitTeams s).homeGoals.isSome = true ∧ (splitTeams s).awayGoals.isSome = true) ∧
    (∀ s : String, scoreMatch (cleanSummaryL s.data) = none →
      vsMatch (cleanSummaryL s.data) = none → dashMatch (cleanSummaryL s.data) = none →
      splitTeams s = ⟨"", "", none, none⟩) ∧
    (parseICS c6Ics).map (fun f => (f.venue, f.opponent, f.homeGoals, f.awayGoals)) =
      [("H", "Chelsea", some 2, some 0)] := by
  refine ⟨by decide, ?_, ?_, ?_, by decide⟩
  · intro s h
    unfold splitTeams
    simp only [h]
    split
    · exact ⟨rfl, rfl⟩
    · split
      · exact ⟨rfl, rfl⟩
      · exact ⟨rfl, rfl⟩
  · intro s caps h
    unfold splitTeams
    simp only [h]
    exact ⟨rfl, rfl⟩
  · intro s h1 h2 h3
    unfold splitTeams
    simp only [h1, h2, h3]

/-- Witness for C6 at a summary matching no shape. -/
theorem c6_witness :
    scoreMatch (cleanSummaryL ("zzz".data)) = none ∧
      vsMatch (cleanSummaryL ("zzz".data)) = none ∧
      dashMatch (cleanSummaryL ("zzz".data)) = none ∧
      splitTeams "zzz" = ⟨"", "", none, none⟩ :=
  ⟨by decide, by decide, by decide,
    c6_split_teams.2.2.2.1 "zzz" (by decide) (by decide) (by decide)⟩

theorem parseDTSTART_time (v : String) (dt : DT) (h : parseDTSTART v = some dt) :
    dt.time = dt.hh ++ ":" ++ dt.mm := by
  unfold parseDTSTART at h
  dsimp only at h
  split at h
  next hg =>
    split at h
    next hh mm heq =>
      injection h with h'
      rw [← h']
    next heq =>
      injection h with h'
      rw [← h']
      show ("00:00" : String) = "00" ++ ":" ++ "00"
      decide
  next hg => cases h

theorem dedupeAux_sublist :
    ∀ (l : List Fixture) (seen : List String), List.Sublist (dedupeAux seen l) l := by
  intro l
  induction l with
  | nil => intro seen; simp [dedupeAux]
  | cons x r ih =>
    intro seen
    unfold dedupeAux
    split
    · exact (ih seen).cons x
    · exact (ih (x.id :: seen)).cons₂ x

theorem processBlock_datetime (b : String) (f : Fixture) (h : processBlock b = some f) :
    f.datetime_utc = f.date ++ "T" ++ f.time ++ ":00Z" := by
  unfold processBlock at h
  dsimp only at h
  split at h
  · exact absurd h (by simp)
  next hne =>
    split at h
    next heq => exact absurd h (by simp)
    next dt heq =>
      split at h
      · exact absurd h (by simp)
      next hwin =>
        split at h
        · exact absurd h (by simp)
        next hnm =>
          split at h
          · exact absurd h (by simp)
          next hteams =>
            split at h
            · exact absurd h (by simp)
            next hlfc =>
              injection h with h'
              rw [← h']
              dsimp only
              rw [parseDTSTART_time _ _ heq]
              refine String.toList_inj.mp ?_
              show _ = _
              simp [String.data_append, List.append_assoc]

/-- Claim C10: every record the normalizer produces satisfies datetime_utc =
date, a T, the time and a :00Z suffix; the Z is appended even when the raw
start time carried no UTC marker. -/
theorem c10_datetime :
    (∀ raw : String, ∀ f ∈ parseICS raw,
      f.datetime_utc = f.date ++ "T" ++ f.time ++ ":00Z") ∧
    (parseICS c10Ics).map (fun f => (f.date, f.time, f.datetime_utc)) =
      [("2025-09-01", "20:00", "2025-09-01T20:00:00Z")] := by
  refine ⟨?_, by decide⟩
  intro raw f hf
  unfold parseICS dedupeById at hf
  dsimp only at hf
  have hf2 := (dedupeAux_sublist _ []).subset hf
  rw [List.mem_filterMap] at hf2
  obtain ⟨b, _, hb⟩ := hf2
  exact processBlock_datetime b f hb

/-- Witness for C10 at the unmarked-time calendar. -/
theorem c10_witness :
    c10Fix ∈ parseICS c10Ics ∧
      c10Fix.datetime_utc = c10Fix.date ++ "T" ++ c10Fix.time ++ ":00Z" :=
  ⟨by decide, c10_datetime.1 c10Ics c10Fix (by decide)⟩

theorem dedupe_mem_not_seen :
    ∀ (l : List Fixture) (seen : List String) (y : Fixture),
      y ∈ dedupeAux seen l → seen.contains y.id = false := by
  intro l
  induction l with
  | nil => intro seen y hy; simp [dedupeAux] at hy
  | cons x r ih =>
    intro seen y hy
    unfold dedupeAux at hy
    split at hy
    next hc => exact ih seen y hy
    next hc =>
      cases List.mem_cons.mp hy with
      | inl h =>
        subst h
        revert hc
        cases seen.contains y.id <;> simp
      | inr h =>
        have h2 := ih (x.id :: seen) y h
        simp only [List.contains_cons, Bool.or_eq_false_iff] at h2
        exact h2.2

theorem dedupeAux_pairwise :
    ∀ (l : List Fixture) (seen : List String),
      List.Pairwise (fun x y => x.id ≠ y.id) (dedupeAux seen l) := by
  intro l
  induction l with
  | nil => intro seen; simp [dedupeAux]
  | cons x r ih =>
    intro seen
    unfold dedupeAux
    split
    · exact ih seen
    · refine List.Pairwise.cons ?_ (ih (x.id :: seen))
      intro y hy
      have h := dedupe_mem_not_seen r (x.id :: seen) y hy
      simp only [List.contains_cons, Bool.or_eq_false_iff] at h
      intro hxy
      have := h.1
      rw [hxy] at this
      simp at this

theorem dedupeAux_filter_take :
    ∀ (l : List Fixture) (seen : List String) (k : String),
      (dedupeAux seen l).filter (fun x => x.id == k) =
        if seen.contains k then [] else (l.filter (fun x => x.id == k)).take 1 := by
  intro l
  induction l with
  | nil =>
    intro seen k
    cases h : seen.contains k <;> simp [dedupeAux, h]
  | cons x r ih =>
    intro seen k
    unfold dedupeAux
    split
    next hc =>
      rw [ih seen k]
      by_cases hxk : (x.id == k) = true
      · have hk : seen.contains k = true := by rw [← eq_of_beq hxk]; exact hc
        rw [if_pos hk, if_pos hk]
      · have hxkf : (x.id == k) = false := by revert hxk; cases (x.id == k) <;> simp
        rw [List.filter_cons_of_neg (by simp [hxkf])]
    next hc =>
      have hcf : seen.contains x.id = false := by
        revert hc; cases seen.contains x.id <;> simp
      rw [List.filter_cons, ih (x.id :: seen) k, List.filter_cons]
      by_cases hxk : (x.id == k) = true
      · have hkeq : x.id = k := eq_of_beq hxk
        have hsk : seen.contains k = false := by rw [← hkeq]; exact hcf
        have hskne : ¬ seen.contains k = true := by
          intro h
          rw [h] at hsk
          cases hsk
        have hsk2 : (x.id :: seen).contains k = true := by
          simp [List.contains_cons, hkeq]
        rw [if_pos hxk, if_pos hsk2, if_neg hskne, if_pos hxk]
        rfl
      · have hne : ¬ (k == x.id) = true := by
          intro hkx
          refine hxk ?_
          rw [eq_of_beq hkx]
          exact beq_self_eq_true x.id
        have hsk2 : (x.id :: seen).contains k = seen.contains k := by
          simp only [List.contains_cons]
          cases hkx : (k == x.id) with
          | true => exact absurd hkx hne
          | false => simp
        rw [if_neg hxk, hsk2, if_neg hxk]

theorem filter_orderedInsert (a : Fixture) (l : List Fixture) (k : String) :
    (List.orderedInsert fixtureLe a l).filter (fun x => sortKey x == k) =
      if sortKey a == k then a :: l.filter (fun x => sortKey x == k)
      else l.filter (fun x => sortKey x == k) := by
  induction l with
  | nil => cases h : (sortKey a == k) <;> simp [List.orderedInsert, h]
  | cons b t ih =>
    unfold List.orderedInsert
    by_cases hab : fixtureLe a b
    · rw [if_pos hab, List.filter_cons]
    · rw [if_neg hab, List.filter_cons, ih]
      have hlt : sortKey b < sortKey a := not_le.mp hab
      by_cases hak : (sortKey a == k) = true
      · have hbk : (sortKey b == k) = false := by
          cases hb : (sortKey b == k) with
          | false => rfl
          | true =>
            exfalso
            have he : sortKey b = k := eq_of_beq hb
            rw [← eq_of_beq hak] at he
            exact absurd he (ne_of_lt hlt)
        simp [hak, hbk, List.filter_cons]
      · have hakf : (sortKey a == k) = false := by
          revert hak; cases (sortKey a == k) <;> simp
        simp [hakf, List.filter_cons]

theorem sortFixtures_stable :
    ∀ (l : List Fixture) (k : String),
      (sortFixtures l).filter (fun x => sortKey x == k) =
        l.filter (fun x => sortKey x == k) := by
  intro l
  induction l with
  | nil => intro k; rfl
  | cons b t ih =>
    intro k
    unfold sortFixtures at ih ⊢
    simp only [List.insertionSort]
    rw [filter_orderedInsert, ih k, List.filter_cons]

/-- Claim C5: record ids are unique in each batch; the deduplicator keeps only
the first record per id, preserving the relative order of kept records; the
final sort by concatenated date-and-time is ascending and stable, so records
sharing a key keep their prior relative order. -/
theorem c5_dedupe_sort :
    (∀ l : List Fixture, List.Pairwise (fun x y => x.id ≠ y.id) (dedupeById l)) ∧
    (∀ l : List Fixture, List.Sublist (dedupeById l) l) ∧
    (∀ (l : List Fixture) (k : String),
      (dedupeById l).filter (fun x => x.id == k) =
        (l.filter (fun x => x.id == k)).take 1) ∧
    (∀ l : List Fixture, List.Sorted fixtureLe (sortFixtures l)) ∧
    (∀ (l : List Fixture) (k : String),
      (sortFixtures l).filter (fun x => sortKey x == k) =
        l.filter (fun x => sortKey x == k)) ∧
    (∀ raw : String,
      List.Pairwise (fun x y => x.id ≠ y.id) (sortFixtures (parseICS raw))) := by
  refine ⟨fun l => dedupeAux_pairwise l [], fun l => dedupeAux_sublist l [],
    fun l k => ?_, fun l => List.sorted_insertionSort _ _, sortFixtures_stable,
    fun raw => ?_⟩
  · have h := dedupeAux_filter_take l [] k
    simpa [dedupeById] using h
  · have hperm := List.perm_insertionSort fixtureLe (parseICS raw)
    have hp : List.Pairwise (fun x y => x.id ≠ y.id) (parseICS raw) := by
      unfold parseICS dedupeById
      dsimp only
      exact dedupeAux_pairwise _ _
    exact (List.Perm.pairwise_iff (fun h he => h he.symm) hperm).mpr hp

theorem takeWhile_append_of_all {p : Char → Bool} :
    ∀ (l1 l2 : List Char), (∀ c ∈ l1, p c = true) →
      (l1 ++ l2).takeWhile p = l1 ++ l2.takeWhile p := by
  intro l1
  induction l1 with
  | nil => intro l2 h; simp
  | cons c r ih =>
    intro l2 h
    rw [List.cons_append, List.takeWhile_cons, if_pos (h c (List.mem_cons_self c r)),
      ih l2 (fun d hd => h d (List.mem_cons_of_mem c hd)), List.cons_append]

theorem takeWhile_of_all {p : Char → Bool} (l : List Char) (h : ∀ c ∈ l, p c = true) :
    l.takeWhile p = l := by
  have h2 := takeWhile_append_of_all l [] h
  simpa using h2

theorem dropWhile_ne_nil_of_exists {q : Char → Bool} :
    ∀ l : List Char, (∃ c ∈ l, q c = false) → l.dropWhile q ≠ [] := by
  intro l
  induction l with
  | nil => rintro ⟨c, hc, _⟩; cases hc
  | cons c r ih =>
    rintro ⟨d, hd, hq⟩
    rw [List.dropWhile_cons]
    by_cases hc : q c = true
    · rw [if_pos hc]
      refine ih ⟨d, ?_, hq⟩
      cases List.mem_cons.mp hd with
      | inl he => subst he; rw [hq] at hc; cases hc
      | inr hm => exact hm
    · rw [if_neg hc]; simp

theorem dropWhile_append_of_ne_nil {q : Char → Bool} :
    ∀ (l1 l2 : List Char), l1.dropWhile q ≠ [] →
      (l1 ++ l2).dropWhile q = l1.dropWhile q ++ l2 := by
  intro l1
  induction l1 with
  | nil => intro l2 h; exact absurd rfl h
  | cons c r ih =>
    intro l2 h
    rw [List.dropWhile_cons] at h
    rw [List.cons_append, List.dropWhile_cons, List.dropWhile_cons]
    by_cases hc : q c = true
    · rw [if_pos hc] at h
      rw [if_pos hc, if_pos hc]
      exact ih l2 h
    · rw [if_neg hc, if_neg hc, List.cons_append]

theorem dropWhile_head_false {q : Char → Bool} :
    ∀ l : List Char, ∀ d r4, l.dropWhile q = d :: r4 → q d = false := by
  intro l
  induction l with
  | nil => intro d r4 h; cases h
  | cons c r ih =>
    intro d r4 h
    rw [List.dropWhile_cons] at h
    by_cases hc : q c = true
    · rw [if_pos hc] at h; exact ih d r4 h
    · rw [if_neg hc] at h
      injection h with h1 h2
      rw [← h1]
      revert hc
      cases q c <;> simp

theorem dropWhile_head_term :
    ∀ l : List Char, ∀ t r', l.dropWhile (fun c => !isLineTerm c) = t :: r' →
      isLineTerm t = true := by
  intro l t r' h
  have h2 := dropWhile_head_false l t r' h
  revert h2
  cases isLineTerm t <;> simp

theorem splitLinesL_head :
    ∀ l : List Char, ∃ rest, splitLinesL l =
      (l.takeWhile (fun c => !isLineTerm c)) :: rest := by
  intro l
  induction l with
  | nil => exact ⟨[], rfl⟩
  | cons c r ih =>
    by_cases hc : isLineTerm c = true
    · refine ⟨splitLinesL r, ?_⟩
      simp only [splitLinesL]
      rw [if_pos hc, List.takeWhile_cons, if_neg (by rw [hc]; decide)]
    · obtain ⟨rest, hr⟩ := ih
      refine ⟨rest, ?_⟩
      simp only [splitLinesL]
      rw [if_neg hc, hr]
      have hcT : (!isLineTerm c) = true := by
        revert hc
        cases isLineTerm c <;> simp
      rw [List.takeWhile_cons, if_pos hcT]

theorem restTakeWhile_nil :
    ∀ l : List Char,
      (l.dropWhile (fun c => !isLineTerm c)).takeWhile (fun c => !isLineTerm c) = [] := by
  intro l
  cases hr : l.dropWhile (fun c => !isLineTerm c) with
  | nil => rfl
  | cons t r' =>
    have ht := dropWhile_head_term l t r' hr
    rw [List.takeWhile_cons, if_neg (by rw [ht]; decide)]

theorem matchKeyHere_takeWhile (key : List Char) (hk : goodKey key = true) :
    ∀ l : List Char,
      paramSuffixOk key (l.takeWhile (fun c => !isLineTerm c)) = true →
      matchKeyHere key l = matchKeyHere key (l.takeWhile (fun c => !isLineTerm c)) := by
  intro l hok
  have hkeyT : ∀ c ∈ key, (!isLineTerm c) = true := by
    intro c hc
    have h1 := List.all_eq_true.mp hk c hc
    unfold goodKeyChar at h1
    simp only [Bool.and_eq_true] at h1
    exact h1.1.1
  have hsplit : l.takeWhile (fun c => !isLineTerm c) ++ l.dropWhile (fun c => !isLineTerm c) = l :=
    List.takeWhile_append_dropWhile (fun c => !isLineTerm c) l
  have hlnAll : ∀ c ∈ l.takeWhile (fun c => !isLineTerm c), (!isLineTerm c) = true := by
    intro c hc
    exact List.mem_takeWhile_imp (p := fun c => !isLineTerm c) hc
  by_cases hpre : key.isPrefixOf (l.takeWhile (fun c => !isLineTerm c)) = true
  · have hpreL : key.isPrefixOf l = true := by
      rw [ List.isPrefixOf_iff_prefix] at hpre ⊢
      exact hpre.trans ( List.takeWhile_prefix _)
    have hlen : key.length ≤ (l.takeWhile (fun c => !isLineTerm c)).length :=
      ( List.isPrefixOf_iff_prefix.mp hpre).length_le
    unfold matchKeyHere
    rw [if_pos hpreL, if_pos hpre]
    have hdropL : l.drop key.length =
        (l.takeWhile (fun c => !isLineTerm c)).drop key.length ++
          l.dropWhile (fun c => !isLineTerm c) := by
      conv_lhs => rw [← hsplit]
      exact List.drop_append_of_le_length hlen
    rw [hdropL]
    cases hD : (l.takeWhile (fun c => !isLineTerm c)).drop key.length with
    | nil =>
      simp only [List.nil_append]
      cases hre : l.dropWhile (fun c => !isLineTerm c) with
      | nil => rfl
      | cons t r' =>
        have ht := dropWhile_head_term l t r' hre
        have ht1 : ¬ (t = ';') := by intro he; rw [he] at ht; exact absurd ht (by decide)
        have ht2 : ¬ (t = ':') := by intro he; rw [he] at ht; exact absurd ht (by decide)
        simp only [matchAfterKey]
        rw [if_neg ht1, if_neg ht2]
    | cons c r2 =>
      simp only [List.cons_append, matchAfterKey]
      have hr2mem : ∀ d ∈ r2, (!isLineTerm d) = true := by
        intro d hd
        refine hlnAll d ?_
        have h1 : d ∈ (l.takeWhile (fun c => !isLineTerm c)).drop key.length := by
          rw [hD]
          exact List.mem_cons_of_mem c hd
        exact (List.drop_sublist _ _).subset h1
      by_cases hcSemi : c = ';'
      · subst hcSemi
        rw [if_pos rfl, if_pos rfl]
        have hcontains : r2.contains ':' = true := by
          unfold paramSuffixOk at hok
          rw [hpre, hD] at hok
          simpa using hok
        have hcolonMem : ':' ∈ r2 := by
          have h1 : r2.elem ':' = true := hcontains
          exact (List.elem_iff).mp h1
        have hne : r2.dropWhile (fun x => x != ':') ≠ [] :=
          dropWhile_ne_nil_of_exists r2 ⟨':', hcolonMem, by decide⟩
        rw [dropWhile_append_of_ne_nil r2 _ hne]
        cases hdw : r2.dropWhile (fun x => x != ':') with
        | nil => exact absurd hdw hne
        | cons d r4 =>
          have hd : d = ':' := by
            have h1 := dropWhile_head_false r2 d r4 hdw
            have h2 : (d == ':') = true := by
              revert h1
              unfold bne
              cases (d == ':') <;> simp
            exact eq_of_beq h2
          subst hd
          simp only [List.cons_append, matchColon, if_true]
          have hr4mem : ∀ e ∈ r4, (!isLineTerm e) = true := by
            intro e he
            refine hr2mem e ?_
            have h1 : e ∈ ':' :: r4 := List.mem_cons_of_mem _ he
            rw [← hdw] at h1
            exact (List.dropWhile_sublist _).subset h1
          rw [takeWhile_append_of_all r4 _ hr4mem, takeWhile_of_all r4 hr4mem,
            restTakeWhile_nil l, List.append_nil]
      · by_cases hcColon : c = ':'
        · subst hcColon
          have hns : ¬ (':' = ';') := by decide
          rw [if_neg hns, if_neg hns, if_pos rfl, if_pos rfl]
          rw [takeWhile_append_of_all r2 _ hr2mem, takeWhile_of_all r2 hr2mem,
            restTakeWhile_nil l, List.append_nil]
        · rw [if_neg hcSemi, if_neg hcSemi, if_neg hcColon, if_neg hcColon]
  · have hpreL : ¬ key.isPrefixOf l = true := by
      intro hp
      refine hpre ?_
      have hpfx := List.isPrefixOf_iff_prefix.mp hp
      obtain ⟨s, hs⟩ := hpfx
      have hln : l.takeWhile (fun c => !isLineTerm c) =
          key ++ s.takeWhile (fun c => !isLineTerm c) := by
        rw [← hs]
        exact takeWhile_append_of_all key s hkeyT
      rw [hln, List.isPrefixOf_iff_prefix]
      exact List.prefix_append key _
    unfold matchKeyHere
    rw [if_neg hpreL, if_neg hpre]

theorem paramSuffixOk_nil (key : List Char) : paramSuffixOk key [] = true := by
  unfold paramSuffixOk
  cases hkp : List.isPrefixOf key [] with
  | false => rfl
  | true => simp

theorem getLineScan_perLine (key : List Char) (hk : goodKey key = true) :
    ∀ l : List Char,
      (blockLinesOk key l = true →
        getLineScan key true l =
          (splitLinesL l).findSome? (fun ln => matchKeyHere key ln)) ∧
      ((splitLinesL l).tail.all (paramSuffixOk key) = true →
        getLineScan key false l =
          ((splitLinesL l).tail).findSome? (fun ln => matchKeyHere key ln)) := by
  intro l
  induction l with
  | nil =>
    constructor
    · intro _
      simp only [getLineScan, splitLinesL, List.findSome?_cons, List.findSome?_nil]
      cases hm : matchKeyHere key [] <;> simp [hm]
    · intro _
      simp [getLineScan, splitLinesL]
  | cons c r ih =>
    obtain ⟨ihP, ihQ⟩ := ih
    by_cases hc : isLineTerm c = true
    · have hsl : splitLinesL (c :: r) = [] :: splitLinesL r := by
        simp only [splitLinesL, if_pos hc]
      have htw : (c :: r).takeWhile (fun x => !isLineTerm x) = [] := by
        rw [List.takeWhile_cons, if_neg (by rw [hc]; decide)]
      have hok1 : paramSuffixOk key ((c :: r).takeWhile (fun x => !isLineTerm x)) = true := by
        rw [htw]
        exact paramSuffixOk_nil key
      have hmk : matchKeyHere key (c :: r) = matchKeyHere key [] := by
        have h1 := matchKeyHere_takeWhile key hk (c :: r) hok1
        rw [htw] at h1
        exact h1
      constructor
      · intro hok
        have hokr : blockLinesOk key r = true := by
          unfold blockLinesOk at hok ⊢
          rw [hsl] at hok
          simp only [List.all_cons, Bool.and_eq_true] at hok
          exact hok.2
        rw [hsl, List.findSome?_cons]
        simp only [getLineScan, hmk]
        cases hm : matchKeyHere key [] with
        | some v => rfl
        | none =>
          dsimp only
          rw [hc, ihP hokr]
      · intro hok
        have hokr : blockLinesOk key r = true := by
          unfold blockLinesOk
          rw [hsl] at hok
          exact hok
        rw [hsl]
        simp only [getLineScan]
        rw [hc, ihP hokr, List.tail_cons]
    · have hcf : isLineTerm c = false := by
        revert hc
        cases isLineTerm c <;> simp
      obtain ⟨lrest, hsl'⟩ := splitLinesL_head r
      have hsl : splitLinesL (c :: r) =
          (c :: r.takeWhile (fun x => !isLineTerm x)) :: lrest := by
        simp only [splitLinesL, if_neg hc, hsl']
      have htw : (c :: r).takeWhile (fun x => !isLineTerm x) =
          c :: r.takeWhile (fun x => !isLineTerm x) := by
        rw [List.takeWhile_cons, if_pos (by rw [hcf]; decide)]
      constructor
      · intro hok
        have hok1 : paramSuffixOk key
            (c :: r.takeWhile (fun x => !isLineTerm x)) = true := by
          unfold blockLinesOk at hok
          rw [hsl] at hok
          simp only [List.all_cons, Bool.and_eq_true] at hok
          exact hok.1
        have hokrest : lrest.all (paramSuffixOk key) = true := by
          unfold blockLinesOk at hok
          rw [hsl] at hok
          simp only [List.all_cons, Bool.and_eq_true] at hok
          exact hok.2
        have hmk : matchKeyHere key (c :: r) =
            matchKeyHere key (c :: r.takeWhile (fun x => !isLineTerm x)) := by
          have h1 := matchKeyHere_takeWhile key hk (c :: r) (by rw [htw]; exact hok1)
          rw [htw] at h1
          exact h1
        rw [hsl, List.findSome?_cons]
        simp only [getLineScan, hmk]
        cases hm : matchKeyHere key (c :: r.takeWhile (fun x => !isLineTerm x)) with
        | some v => rfl
        | none =>
          dsimp only
          rw [hcf]
          have hq := ihQ (by rw [hsl']; exact hokrest)
          rw [hsl'] at hq
          exact hq
      · intro hok
        rw [hsl] at hok ⊢
        simp only [getLineScan]
        rw [hcf]
        have hq := ihQ (by rw [hsl']; exact hok)
        rw [hsl'] at hq
        exact hq

/-- Counterexample to claim C7: the negated non-colon class in the parameter
suffix may cross line breaks, so the extractor can return a capture from a
later physical line than the first line matching the key. -/
theorem c7_counterexample :
    getLine "DTSTART;x\nSUMMARY:S\nDTSTART:B" "DTSTART" = "S" ∧
    getLinePerLine "DTSTART;x\nSUMMARY:S\nDTSTART:B" "DTSTART" = "B" ∧
    blockLinesOk ("DTSTART".data) ("DTSTART;x\nSUMMARY:S\nDTSTART:B".data) = false ∧
    ("S" : String) ≠ "B" :=
  ⟨by decide, by decide, by decide, by decide⟩

/-- Claim C7 as amended: the extractor returns the first match of the key at a
line start, with any parameter suffix between the key and the colon ignored
and the value trimmed, and the empty string when there is no match - where the
parameter suffix is a run of arbitrary non-colon characters that may span line
breaks; on blocks whose parameter suffixes stay on one line (and for orderly
keys) this is exactly the first-matching-line reading. -/
theorem c7_get_line :
    ∀ block key : String, goodKey key.data = true →
      blockLinesOk key.data block.data = true →
      getLine block key = getLinePerLine block key := by
  intro block key hkey hok
  unfold getLine getLinePerLine
  rw [(getLineScan_perLine key.data hkey block.data).1 hok]

/-- Witness for C7 at a concrete block with a one-line parameter suffix. -/
theorem c7_witness :
    goodKey ("DTSTART".data) = true ∧
      blockLinesOk ("DTSTART".data)
        ("BEGIN:VEVENT\nDTSTART;TZID=X:20260131\nEND:VEVENT".data) = true ∧
      getLine "BEGIN:VEVENT\nDTSTART;TZID=X:20260131\nEND:VEVENT" "DTSTART" =
        getLinePerLine "BEGIN:VEVENT\nDTSTART;TZID=X:20260131\nEND:VEVENT" "DTSTART" :=
  ⟨by decide, by decide,
    c7_get_line "BEGIN:VEVENT\nDTSTART;TZID=X:20260131\nEND:VEVENT" "DTSTART"
      (by decide) (by decide)⟩

end LfcIcs
